import Mathlib

/-!
# Verification of `processors.py` (mds-moderator)

Shallow embedding of the frame processors in `src/processors.py` and proofs
about them.  Text is modelled as `List Char` (Python `str`).  The Python
regular expressions used by the source are embedded as executable Lean
functions whose semantics (leftmost match, greediness/laziness, `.` not
matching a newline) follow Python's `re` module on the concrete patterns
appearing in the source.
-/

set_option autoImplicit false

/-! ## Sentence terminator characters

The pattern `(.*[?.!])(.*)` (processors.py line 146) treats `.`, `!`, `?`
as terminators. -/

def isTerm (c : Char) : Bool := c = '.' || c = '!' || c = '?'

/-- Split a newline-free chunk at its *last* terminator: the regex piece
`(.*[?.!])` is greedy, so `group(1)` extends through the last terminator of
the matched line.  Returns `some (head, tail)` with `head` ending at the
last terminator, `none` if the chunk has no terminator. -/
def splitLastTerm : List Char → Option (List Char × List Char)
  | [] => none
  | c :: cs =>
    match splitLastTerm cs with
    | some (h, t) => some (c :: h, t)
    | none => if isTerm c then some ([c], cs) else none

/-- Split a string into its `'\n'`-separated lines (Python `.` does not
match a newline, so a regex match of `(.*[?.!])(.*)` lives inside one
line). -/
def splitLines : List Char → List (List Char)
  | [] => [[]]
  | c :: cs =>
    match splitLines cs with
    | [] => [[]]
    | l :: ls => if c = '\n' then [] :: l :: ls else (c :: l) :: ls

/-- Scan the lines left to right for the first line containing a
terminator; `re.search` returns the leftmost match, whose starting
position is the start of that line. -/
def searchLines : List (List Char) → Option (List Char × List Char)
  | [] => none
  | l :: ls =>
    match splitLastTerm l with
    | some p => some p
    | none => searchLines ls

/-- Embedding of `re.search("(.*[?.!])(.*)", s)` (processors.py line 146):
`some (g1, g2)` are the two capture groups of the leftmost match, `none`
when there is no match. -/
def sentenceSearch (s : List Char) : Option (List Char × List Char) :=
  searchLines (splitLines s)

namespace SentenceAggregator

/-- One `SentenceAggregator.process_frame` call on a `TextFrame`
(processors.py lines 145-151): search the *fragment* for the sentence
pattern; on a match push `aggregation + group(1)` and set the buffer to
`group(2)`; otherwise append the fragment to the buffer.  Returns the new
buffer and the pushed `TextFrame` text, if any. -/
def process_text (agg : List Char) (frag : List Char) :
    List Char × Option (List Char) :=
  match sentenceSearch frag with
  | some (g1, g2) => (g2, some (agg ++ g1))
  | none => (agg ++ frag, none)

/-- Feed a list of text fragments through the aggregator in order,
starting from buffer `agg`; returns the final buffer and the list of
pushed texts in emission order. -/
def run (agg : List Char) : List (List Char) → List Char × List (List Char)
  | [] => (agg, [])
  | f :: fs =>
    let r := process_text agg f
    let rest := run r.1 fs
    match r.2 with
    | none => rest
    | some e => (rest.1, e :: rest.2)

end SentenceAggregator

/-- Number of terminator characters in a string. -/
def countTerm (s : List Char) : Nat := s.countP (fun c => isTerm c)

/-! ## Lemmas about the sentence regex embedding -/

theorem splitLastTerm_eq_none {s : List Char}
    (h : ∀ x ∈ s, isTerm x = false) : splitLastTerm s = none := by
  induction s with
  | nil => rfl
  | cons c cs ih =>
    have hc : isTerm c = false := h c (List.mem_cons_self c cs)
    have hcs : splitLastTerm cs = none :=
      ih (fun x hx => h x (List.mem_cons_of_mem c hx))
    simp [splitLastTerm, hcs, hc]

theorem splitLastTerm_append {g t : List Char} {c : Char}
    (hc : isTerm c = true) (ht : ∀ x ∈ t, isTerm x = false) :
    splitLastTerm (g ++ c :: t) = some (g ++ [c], t) := by
  induction g with
  | nil =>
    simp [splitLastTerm, splitLastTerm_eq_none ht, hc]
  | cons x g ih =>
    simp [splitLastTerm, ih]

theorem splitLines_of_no_newline {s : List Char} (h : '\n' ∉ s) :
    splitLines s = [s] := by
  induction s with
  | nil => rfl
  | cons c cs ih =>
    have hc : c ≠ '\n' := by
      intro hc; exact h (hc ▸ List.mem_cons_self c cs)
    have hcs : splitLines cs = [cs] := ih (fun hm => h (List.mem_cons_of_mem c hm))
    simp [splitLines, hcs, hc]

theorem mem_of_mem_splitLines {s l : List Char} {x : Char}
    (hl : l ∈ splitLines s) (hx : x ∈ l) : x ∈ s := by
  induction s generalizing l with
  | nil =>
    simp [splitLines] at hl
    subst hl
    exact absurd hx (List.not_mem_nil x)
  | cons c cs ih =>
    rcases hls : splitLines cs with _ | ⟨l0, ls⟩
    · simp [splitLines, hls] at hl
      subst hl
      exact absurd hx (List.not_mem_nil x)
    · by_cases hc : c = '\n'
      · simp [splitLines, hls, hc] at hl
        rcases hl with hl | hl | hl
        · subst hl; exact absurd hx (List.not_mem_nil x)
        · refine List.mem_cons_of_mem c (ih ?_ hx)
          rw [hls, hl]; exact List.mem_cons_self l0 ls
        · refine List.mem_cons_of_mem c (ih ?_ hx)
          rw [hls]; exact List.mem_cons_of_mem l0 hl
      · simp [splitLines, hls, hc] at hl
        rcases hl with hl | hl
        · subst hl
          rcases List.mem_cons.1 hx with hx | hx
          · exact hx ▸ List.mem_cons_self c cs
          · refine List.mem_cons_of_mem c (ih ?_ hx)
            rw [hls]; exact List.mem_cons_self l0 ls
        · refine List.mem_cons_of_mem c (ih ?_ hx)
          rw [hls]; exact List.mem_cons_of_mem l0 hl

theorem sentenceSearch_eq_none {s : List Char}
    (h : ∀ x ∈ s, isTerm x = false) : sentenceSearch s = none := by
  unfold sentenceSearch
  have : ∀ ls : List (List Char), (∀ l ∈ ls, ∀ x ∈ l, isTerm x = false) →
      searchLines ls = none := by
    intro ls
    induction ls with
    | nil => intro _; rfl
    | cons l ls ih =>
      intro hls
      have h1 : splitLastTerm l = none :=
        splitLastTerm_eq_none (hls l (List.mem_cons_self l ls))
      have h2 : searchLines ls = none :=
        ih (fun l' hl' => hls l' (List.mem_cons_of_mem l hl'))
      simp [searchLines, h1, h2]
  exact this _ (fun l hl x hx => h x (mem_of_mem_splitLines hl hx))

theorem sentenceSearch_of_no_newline {s : List Char} (h : '\n' ∉ s) :
    sentenceSearch s = splitLastTerm s := by
  unfold sentenceSearch
  rw [splitLines_of_no_newline h]
  cases hs : splitLastTerm s with
  | none => simp [searchLines, hs]
  | some p => simp [searchLines, hs]

/-! ## Behaviour of the aggregator step -/

theorem process_text_of_no_term {b f : List Char}
    (h : ∀ x ∈ f, isTerm x = false) :
    SentenceAggregator.process_text b f = (b ++ f, none) := by
  unfold SentenceAggregator.process_text
  rw [sentenceSearch_eq_none h]

theorem process_text_split {b g t : List Char} {c : Char}
    (hc : isTerm c = true) (ht : ∀ x ∈ t, isTerm x = false)
    (hnl : '\n' ∉ g ++ c :: t) :
    SentenceAggregator.process_text b (g ++ c :: t) =
      (t, some (b ++ (g ++ [c]))) := by
  unfold SentenceAggregator.process_text
  rw [sentenceSearch_of_no_newline hnl, splitLastTerm_append hc ht]

theorem run_cons_none {b b' f : List Char} {fs : List (List Char)}
    (h : SentenceAggregator.process_text b f = (b', none)) :
    SentenceAggregator.run b (f :: fs) = SentenceAggregator.run b' fs := by
  simp only [SentenceAggregator.run, h]

theorem run_cons_some {b b' e : List Char} {fs : List (List Char)}
    {f : List Char}
    (h : SentenceAggregator.process_text b f = (b', some e)) :
    SentenceAggregator.run b (f :: fs) =
      ((SentenceAggregator.run b' fs).1,
        e :: (SentenceAggregator.run b' fs).2) := by
  simp only [SentenceAggregator.run, h]

theorem run_of_flatten_nil {fs : List (List Char)} {b : List Char}
    (h : fs.flatten = []) : SentenceAggregator.run b fs = (b, []) := by
  induction fs generalizing b with
  | nil => rfl
  | cons f fs ih =>
    rw [List.flatten_cons] at h
    rcases List.append_eq_nil.1 h with ⟨hf, hfs⟩
    subst hf
    have hstep : SentenceAggregator.process_text b [] = (b, none) := by
      simpa using
        process_text_of_no_term (b := b)
          (fun x hx => absurd hx (List.not_mem_nil x))
    rw [run_cons_none hstep]
    exact ih hfs

theorem run_single_term {fs : List (List Char)} {b g : List Char} {c : Char}
    (hjoin : fs.flatten = g ++ [c]) (hc : isTerm c = true)
    (hg : ∀ x ∈ g, isTerm x = false) (hnl : '\n' ∉ g) :
    SentenceAggregator.run b fs = ([], [b ++ (g ++ [c])]) := by
  induction fs generalizing b g with
  | nil => exact absurd hjoin.symm (List.append_ne_nil_of_right_ne_nil g (by simp))
  | cons f fs ih =>
    have hjf : f ++ fs.flatten = g ++ [c] := by
      simpa [List.flatten_cons] using hjoin
    rcases List.eq_nil_or_concat fs.flatten with hrest | ⟨g', c', hrest⟩
    · -- all remaining fragments are empty; this fragment carries everything
      have hf : f = g ++ [c] := by simpa [hrest] using hjf
      have hcnl : c ≠ '\n' := by
        intro hcn
        rw [hcn] at hc
        exact absurd hc (by decide)
      have hnl' : '\n' ∉ g ++ c :: ([] : List Char) := by
        intro hm
        rcases List.mem_append.1 hm with hm | hm
        · exact hnl hm
        · rcases List.mem_cons.1 hm with hm | hm
          · exact hcnl hm.symm
          · cases hm
      have hstep : SentenceAggregator.process_text b f =
          ([], some (b ++ (g ++ [c]))) := by
        rw [hf]
        have := process_text_split (b := b) (g := g) (t := ([] : List Char))
          hc (fun x hx => absurd hx (List.not_mem_nil x)) hnl'
        simpa using this
      rw [run_cons_some hstep, run_of_flatten_nil hrest]
    · -- the remaining fragments still contain the terminator
      rw [List.concat_eq_append] at hrest
      have hjf' : f ++ (g' ++ [c']) = g ++ [c] := by
        rw [← hrest]; exact hjf
      have hlast : c' = c ∧ f ++ g' = g := by
        have h1 := congrArg List.reverse hjf'
        simp at h1
        exact ⟨h1.1, List.reverse_injective (by simpa using h1.2)⟩
      rcases hlast with ⟨hcc, hfg⟩
      have hf_no : ∀ x ∈ f, isTerm x = false := by
        intro x hx; exact hg x (hfg ▸ List.mem_append_left g' hx)
      have hg'_no : ∀ x ∈ g', isTerm x = false := by
        intro x hx; exact hg x (hfg ▸ List.mem_append_right f hx)
      have hg'_nl : '\n' ∉ g' := by
        intro hm; exact hnl (hfg ▸ List.mem_append_right f hm)
      rw [run_cons_none (process_text_of_no_term (b := b) hf_no)]
      rw [ih (b := b ++ f) (g := g') (hrest.trans (by rw [hcc])) hg'_no hg'_nl]
      rw [← hfg]
      simp

/-! ## Claim C3 -/

/-- C3 counterexample: the claim says a fragment is split at the *first*
terminator, so on the fragment `"a.b."` (empty buffer) it predicts emitting
`"a."` and retaining `"b."`.  The code's regex `(.*[?.!])` is greedy: the
actual split is at the *last* terminator, emitting `"a.b."` with an empty
buffer. -/
theorem claim3_first_split_cex :
    SentenceAggregator.process_text [] "a.b.".toList =
        ([], some "a.b.".toList) ∧
      SentenceAggregator.process_text [] "a.b.".toList ≠
        ("b.".toList, some "a.".toList) := by
  constructor
  · decide
  · decide

/-- C3 (amended): on a newline-free fragment containing a terminator, the
aggregator emits `buffer ++ head` where `head` runs through the *last*
terminator of the fragment, and retains the (terminator-free) tail as the
new buffer; hence a fragment with several terminators yields a single
emitted unit containing all of its completed sentences. -/
theorem claim3_split_at_last_terminator {b g t : List Char} {c : Char}
    (hc : isTerm c = true) (ht : ∀ x ∈ t, isTerm x = false)
    (hnl : '\n' ∉ g ++ c :: t) :
    SentenceAggregator.process_text b (g ++ c :: t) =
      (t, some (b ++ (g ++ [c]))) :=
  process_text_split hc ht hnl

/-- Witness for C3 (amended) at buffer `""`, fragment `"a.b."`. -/
theorem claim3_split_at_last_terminator_witness :
    SentenceAggregator.process_text [] "a.b.".toList =
      ([], some "a.b.".toList) :=
  ((by decide : SentenceAggregator.process_text [] "a.b.".toList =
      SentenceAggregator.process_text []
        ("a.b".toList ++ '.' :: []))).trans
    ((claim3_split_at_last_terminator (by decide)
        (fun x hx => absurd hx (List.not_mem_nil x)) (by decide)).trans
      (by decide))

/-! ## Claim C4 -/

/-- C4 counterexample: the fragment list `["a.b"]` has a concatenation with
exactly one terminator, but the run emits `"a."` (not the concatenation
`"a.b"`) and leaves `"b"` in the buffer. -/
theorem claim4_single_terminator_cex :
    countTerm "a.b".toList = 1 ∧
      SentenceAggregator.run [] ["a.b".toList] =
        ("b".toList, ["a.".toList]) ∧
      SentenceAggregator.run [] ["a.b".toList] ≠
        ([], ["a.b".toList]) := by
  refine ⟨by decide, by decide, by decide⟩

/-- C4 (amended): for every sequence of fragments whose concatenation
contains exactly one terminator character, *which is the final character*,
and contains no newline, feeding them in order to a fresh aggregator emits
exactly one completed unit equal to the full concatenation and leaves the
buffer empty. -/
theorem claim4_single_terminator {fs : List (List Char)} {g : List Char}
    {c : Char} (hjoin : fs.flatten = g ++ [c]) (hc : isTerm c = true)
    (hg : ∀ x ∈ g, isTerm x = false) (hnl : '\n' ∉ g) :
    SentenceAggregator.run [] fs = ([], [fs.flatten]) := by
  rw [hjoin]
  simpa using run_single_term (b := []) hjoin hc hg hnl

/-- Witness for C4 (amended): scenario A, fragments `"Hello, "`,
`"world."`. -/
theorem claim4_single_terminator_witness :
    SentenceAggregator.run [] ["Hello, ".toList, "world.".toList] =
      ([], ["Hello, world.".toList]) :=
  (claim4_single_terminator (g := "Hello, world".toList) (c := '.')
      (by decide) (by decide) (by decide) (by decide)).trans (by decide)

/-! ## StoryProcessor embedding

`StoryProcessor.process_frame` (processors.py lines 210-272) is embedded
as a *trace* of atomic actions (frame pushes, buffer assignments, story
appends, raised exceptions) executed in program order, so that both the
observable outputs and the relative order of mutations and pushes can be
reasoned about. -/

/-- Turn-taking cues `CUE_ASSISTANT_TURN` / `CUE_USER_TURN` imported from
`prompts.py` (a module outside the source file; the payloads are opaque
constants, so they are modelled as tags). -/
inductive Cue where
  | assistantTurn
  | userTurn
  deriving DecidableEq

/-- Python exceptions the embedded code can raise. -/
inductive PyExc where
  | nameError
  | attributeError
  | timeoutError
  deriving DecidableEq

/-- Frames pushed downstream by `StoryProcessor.process_frame`. -/
inductive OutFrame where
  | image (prompt : List Char)
  | page (text : List Char)
  | storyPrompt (text : List Char)
  | message (c : Cue)
  | sound (name : List Char)
  | endResponse
  | passthrough
  deriving DecidableEq

/-- Incoming frames distinguished by `StoryProcessor.process_frame`. -/
inductive InFrame where
  | userStoppedSpeaking
  | text (t : List Char)
  | llmEnd
  | other
  deriving DecidableEq

/-- State owned by a `StoryProcessor`: the text buffer `self._text` and
the shared story list `self._story` (append-only). -/
structure StoryState where
  text : List Char
  story : List (List Char)
  deriving DecidableEq

/-- Atomic actions performed by `process_frame`, in program order. -/
inductive SEv where
  | push (f : OutFrame)
  | setText (t : List Char)
  | appendStory (t : List Char)
  | raiseExc (e : PyExc)
  deriving DecidableEq

/-- Is some `'>'` ahead in the current line (before any newline)?  A match
of the lazy pattern `<.*?>` needs exactly this after its `'<'` (`.` does
not match a newline). -/
def hasCloseAhead : List Char → Bool
  | [] => false
  | c :: cs => if c = '>' then true else if c = '\n' then false else hasCloseAhead cs

/-- Embedding of the guard `re.search(r"<.*?>", t)` (line 228) as a
Boolean: some `'<'` is followed by a `'>'` within the same line. -/
def hasCompletePair : List Char → Bool
  | [] => false
  | c :: cs => (c = '<' && hasCloseAhead cs) || hasCompletePair cs

/-- Scan for the closing `'>'` of an already-seen `'<'`: returns the
(shortest) prompt and the remainder after the `'>'`; fails at a newline
or at end of string. -/
def findClose : List Char → Option (List Char × List Char)
  | [] => none
  | c :: cs =>
    if c = '>' then some ([], cs)
    else if c = '\n' then none
    else
      match findClose cs with
      | some (p, rest) => some (c :: p, rest)
      | none => none

/-- Embedding of the extraction `re.search(r"<(.*?)>", t)` (line 234)
combined with the span removal `re.sub(r"<.*?>", '', t, count=1)` (line
236): `some (pre, prompt, post)` means the leftmost match is
`'<' ++ prompt ++ '>'` with `pre` before it and `post` after it. -/
def imgSearch : List Char → Option (List Char × List Char × List Char)
  | [] => none
  | c :: cs =>
    if c = '<' then
      match findClose cs with
      | some (p, rest) => some ([], p, rest)
      | none =>
        match imgSearch cs with
        | some (pre, p, rest) => some (c :: pre, p, rest)
        | none => none
    else
      match imgSearch cs with
      | some (pre, p, rest) => some (c :: pre, p, rest)
      | none => none

/-- The seven characters of the lower-case break token. -/
def breakLit : List Char := ['[', 'b', 'r', 'e', 'a', 'k', ']']

/-- Case-insensitive test of seven characters against `[break]`: what one
match of `re.sub(r'\[[bB]reak\]', ..., flags=re.IGNORECASE)` accepts. -/
def isBreak7 (a b c d e f g : Char) : Bool :=
  a = '[' && b.toLower = 'b' && c.toLower = 'r' && d.toLower = 'e' &&
    e.toLower = 'a' && f.toLower = 'k' && g = ']'

/-- Does the string start with a case-insensitive `[break]` token? -/
def startsWithBreakCI : List Char → Bool
  | a :: b :: c :: d :: e :: f :: g :: _ => isBreak7 a b c d e f g
  | _ => false

/-- Does the string contain a case-insensitive `[break]` token anywhere? -/
def hasBreakCI : List Char → Bool
  | [] => false
  | c :: rest => startsWithBreakCI (c :: rest) || hasBreakCI rest

/-- One match of the *trigger* pattern `\[[bB]reak\]` (line 244, compiled
without `re.IGNORECASE`): only `[break]` and `[Break]` are accepted. -/
def isBreakLB7 (a b c d e f g : Char) : Bool :=
  a = '[' && (b = 'b' || b = 'B') && c = 'r' && d = 'e' && e = 'a' &&
    f = 'k' && g = ']'

/-- Does the string start with `[break]` or `[Break]`? -/
def startsWithBreakLB : List Char → Bool
  | a :: b :: c :: d :: e :: f :: g :: _ => isBreakLB7 a b c d e f g
  | _ => false

/-- Embedding of `re.search(r".*\[[bB]reak\].*", t)` (line 244) as a
Boolean: both `.*` pieces may be empty, so the search succeeds exactly
when `[break]` or `[Break]` occurs somewhere in `t`. -/
def hasBreakToken : List Char → Bool
  | [] => false
  | c :: rest => startsWithBreakLB (c :: rest) || hasBreakToken rest

/-- Embedding of `re.sub(r'\[[bB]reak\]', '', t, flags=re.IGNORECASE)`
(lines 247-248): remove all non-overlapping case-insensitive `[break]`
tokens, scanning left to right and resuming after each removed match. -/
def stripBreaks : List Char → List Char
  | a :: b :: c :: d :: e :: f :: g :: rest =>
    if isBreak7 a b c d e f g then stripBreaks rest
    else a :: stripBreaks (b :: c :: d :: e :: f :: g :: rest)
  | a :: rest => a :: stripBreaks rest
  | [] => []

/-- The character map of `str.replace("\n", " ")` (line 249). -/
def rnl (c : Char) : Char := if c = '\n' then ' ' else c

/-- `self._text.replace("\n", " ")` (line 249). -/
def replaceNl (s : List Char) : List Char := s.map rnl

/-- Line 24 of processors.py, `sounds = load_sounds([...])`, is commented
out, so the module-level name `sounds` is undefined:  `none` here. -/
def sounds : Option (List Char → OutFrame) := none

/-- Evaluate `self.push_frame(sounds[name])` (lines 216 and 268): the
subscript expression is evaluated first, so with `sounds` undefined this
raises `NameError` and nothing is pushed. -/
def soundTrace (name : List Char) : List SEv :=
  match sounds with
  | some f => [SEv.push (f name)]
  | none => [SEv.raiseExc PyExc.nameError]

/-- Lines 244-257: the `[break]` handling applied to the buffer `t` left
by the image phase. -/
def breakPhaseTrace (t : List Char) : List SEv :=
  if hasBreakToken t then
    let t1 := stripBreaks t
    let t2 := replaceNl t1
    [SEv.setText t1, SEv.setText t2] ++
      (if 2 < t2.length then
        [SEv.appendStory t2, SEv.push (OutFrame.page t2),
          SEv.push (OutFrame.message Cue.assistantTurn)]
      else []) ++
      [SEv.setText []]
  else []

/-- Lines 218-257: handling of a `TextFrame` carrying `frag`, starting
from buffer `t0`.  The inner guard at lines 229-232 only executes `pass`
and has no control-flow effect, so the extraction of line 234 runs
whenever the outer search of line 228 succeeds; were the extraction to
run without a match, `.group(1)` on `None` would raise
`AttributeError`. -/
def textTrace (t0 frag : List Char) : List SEv :=
  let t1 := t0 ++ frag
  SEv.setText t1 ::
    (if hasCompletePair t1 then
      match imgSearch t1 with
      | some (pre, p, post) =>
        SEv.setText (pre ++ post) :: SEv.push (OutFrame.image p) ::
          breakPhaseTrace (pre ++ post)
      | none => [SEv.raiseExc PyExc.attributeError]
    else breakPhaseTrace t1)

/-- `StoryProcessor.process_frame` (lines 210-272) as a sequence of
atomic actions. -/
def storyTrace (s : StoryState) : InFrame → List SEv
  | InFrame.userStoppedSpeaking =>
    SEv.push (OutFrame.message Cue.assistantTurn) :: soundTrace "talking".toList
  | InFrame.text f => textTrace s.text f
  | InFrame.llmEnd =>
    SEv.push (OutFrame.storyPrompt s.text) :: SEv.setText [] ::
      SEv.push OutFrame.endResponse ::
        SEv.push (OutFrame.message Cue.userTurn) :: soundTrace "listening".toList
  | InFrame.other => [SEv.push OutFrame.passthrough]

/-- Result of one `process_frame` call: final state, frames pushed in
order, and the exception that escaped the call, if any. -/
structure StepResult where
  state : StoryState
  out : List OutFrame
  exc : Option PyExc
  deriving DecidableEq

/-- Execute a sequence of atomic actions from a state: collect pushed
frames in order, apply assignments, and stop at a raised exception
(mutations already performed persist). -/
def execTrace (s : StoryState) : List SEv → StepResult
  | [] => ⟨s, [], none⟩
  | SEv.push f :: rest =>
    let r := execTrace s rest
    ⟨r.state, f :: r.out, r.exc⟩
  | SEv.setText t :: rest => execTrace ⟨t, s.story⟩ rest
  | SEv.appendStory t :: rest => execTrace ⟨s.text, s.story ++ [t]⟩ rest
  | SEv.raiseExc e :: _ => ⟨s, [], some e⟩

namespace StoryProcessor

/-- One `StoryProcessor.process_frame` call (lines 210-272). -/
def process_frame (s : StoryState) (fr : InFrame) : StepResult :=
  execTrace s (storyTrace s fr)

end StoryProcessor

/-! ## Lemmas about the break-token embedding -/

theorem hasBreakCI_cons (c : Char) (rest : List Char) :
    hasBreakCI (c :: rest) = (startsWithBreakCI (c :: rest) || hasBreakCI rest) :=
  rfl

theorem hasBreakToken_cons (c : Char) (rest : List Char) :
    hasBreakToken (c :: rest) =
      (startsWithBreakLB (c :: rest) || hasBreakToken rest) :=
  rfl

theorem stripBreaks_cons (c : Char) (rest : List Char) :
    stripBreaks (c :: rest) =
      if startsWithBreakCI (c :: rest) then stripBreaks (rest.drop 6)
      else c :: stripBreaks rest := by
  rcases rest with _ | ⟨x1, _ | ⟨x2, _ | ⟨x3, _ | ⟨x4, _ | ⟨x5, _ | ⟨x6, r⟩⟩⟩⟩⟩⟩ <;> rfl

theorem stripBreaks_of_no_token {s : List Char} (h : hasBreakCI s = false) :
    stripBreaks s = s := by
  induction s with
  | nil => rfl
  | cons c rest ih =>
    rw [hasBreakCI_cons, Bool.or_eq_false_iff] at h
    rw [stripBreaks_cons, if_neg (by simp [h.1]), ih h.2]

theorem stripBreaks_breakLit (R : List Char) :
    stripBreaks (breakLit ++ R) = stripBreaks R := by
  show stripBreaks ('[' :: 'b' :: 'r' :: 'e' :: 'a' :: 'k' :: ']' :: R) =
    stripBreaks R
  have hb : startsWithBreakCI
      ('[' :: 'b' :: 'r' :: 'e' :: 'a' :: 'k' :: ']' :: R) = true := rfl
  rw [stripBreaks_cons, if_pos hb]
  rfl

theorem hasBreakToken_breakLit (R : List Char) :
    hasBreakToken (breakLit ++ R) = true := by
  show hasBreakToken ('[' :: 'b' :: 'r' :: 'e' :: 'a' :: 'k' :: ']' :: R) = true
  rw [hasBreakToken_cons]
  have hb : startsWithBreakLB
      ('[' :: 'b' :: 'r' :: 'e' :: 'a' :: 'k' :: ']' :: R) = true := rfl
  rw [hb]
  rfl

theorem replaceNl_length (s : List Char) : (replaceNl s).length = s.length := by
  simp [replaceNl]

theorem rnl_eq_of_eq {x y : Char} (hy : y ≠ ' ') (h : rnl x = y) : x = y := by
  by_cases hx : x = '\n'
  · rw [rnl, if_pos hx] at h
    exact absurd h.symm hy
  · rwa [rnl, if_neg hx] at h

theorem rnl_toLower_eq {x y : Char} (hy : (' ' : Char).toLower ≠ y)
    (h : (rnl x).toLower = y) : x.toLower = y := by
  by_cases hx : x = '\n'
  · rw [rnl, if_pos hx] at h
    exact absurd h hy
  · rwa [rnl, if_neg hx] at h

theorem isBreak7_rnl {a b c d e f g : Char}
    (h : isBreak7 (rnl a) (rnl b) (rnl c) (rnl d) (rnl e) (rnl f) (rnl g) =
      true) :
    isBreak7 a b c d e f g = true := by
  simp only [isBreak7, Bool.and_eq_true, decide_eq_true_eq] at h ⊢
  obtain ⟨⟨⟨⟨⟨⟨h1, h2⟩, h3⟩, h4⟩, h5⟩, h6⟩, h7⟩ := h
  exact ⟨⟨⟨⟨⟨⟨rnl_eq_of_eq (by decide) h1, rnl_toLower_eq (by decide) h2⟩,
    rnl_toLower_eq (by decide) h3⟩, rnl_toLower_eq (by decide) h4⟩,
    rnl_toLower_eq (by decide) h5⟩, rnl_toLower_eq (by decide) h6⟩,
    rnl_eq_of_eq (by decide) h7⟩

theorem startsWithBreakCI_replaceNl {s : List Char}
    (h : startsWithBreakCI (replaceNl s) = true) :
    startsWithBreakCI s = true := by
  rcases s with _ | ⟨a, _ | ⟨b, _ | ⟨c, _ | ⟨d, _ | ⟨e, _ | ⟨f, _ | ⟨g, rest⟩⟩⟩⟩⟩⟩⟩ <;>
    simp only [replaceNl, List.map] at h
  · exact absurd h (by decide)
  · exact Bool.noConfusion h
  · exact Bool.noConfusion h
  · exact Bool.noConfusion h
  · exact Bool.noConfusion h
  · exact Bool.noConfusion h
  · exact Bool.noConfusion h
  · exact isBreak7_rnl h

theorem hasBreakCI_replaceNl {s : List Char} (h : hasBreakCI s = false) :
    hasBreakCI (replaceNl s) = false := by
  induction s with
  | nil => rfl
  | cons c rest ih =>
    rw [hasBreakCI_cons, Bool.or_eq_false_iff] at h
    have hmap : replaceNl (c :: rest) = rnl c :: replaceNl rest := by
      simp [replaceNl]
    rw [hmap, hasBreakCI_cons, Bool.or_eq_false_iff]
    refine ⟨?_, by rw [← hmap] at *; exact ih h.2⟩
    cases hs : startsWithBreakCI (rnl c :: replaceNl rest) with
    | false => rfl
    | true =>
      rw [← hmap] at hs
      exact absurd (startsWithBreakCI_replaceNl hs) (by simp [h.1])

/-! ## Lemmas about the bracket-pattern embedding -/

theorem hasCloseAhead_eq_false {s : List Char} (h : '>' ∉ s) :
    hasCloseAhead s = false := by
  induction s with
  | nil => rfl
  | cons c cs ih =>
    have hc : c ≠ '>' := fun hc => h (hc ▸ List.mem_cons_self c cs)
    have hcs := ih (fun hm => h (List.mem_cons_of_mem c hm))
    by_cases hn : c = '\n' <;> simp [hasCloseAhead, hc, hn, hcs]

theorem hasCloseAhead_append {m w : List Char} (hm : '\n' ∉ m) :
    hasCloseAhead (m ++ '>' :: w) = true := by
  induction m with
  | nil => rfl
  | cons c cs ih =>
    have hc : c ≠ '\n' := fun hc => hm (hc ▸ List.mem_cons_self c cs)
    have := ih (fun hmem => hm (List.mem_cons_of_mem c hmem))
    by_cases hg : c = '>' <;> simp [hasCloseAhead, hg, hc, this]

theorem hasCompletePair_eq_false {s : List Char} (h : '>' ∉ s) :
    hasCompletePair s = false := by
  induction s with
  | nil => rfl
  | cons c cs ih =>
    have h1 : hasCloseAhead cs = false :=
      hasCloseAhead_eq_false (fun hm => h (List.mem_cons_of_mem c hm))
    have h2 := ih (fun hm => h (List.mem_cons_of_mem c hm))
    simp [hasCompletePair, h1, h2]

theorem hasCompletePair_open_only {p q : List Char} (hp : '<' ∉ p)
    (hq : '>' ∉ q) : hasCompletePair (p ++ '<' :: q) = false := by
  induction p with
  | nil =>
    have h1 : hasCloseAhead q = false := hasCloseAhead_eq_false hq
    have h2 : hasCompletePair q = false := hasCompletePair_eq_false hq
    simp [hasCompletePair, h1, h2]
  | cons c cs ih =>
    have hc : c ≠ '<' := fun hc => hp (hc ▸ List.mem_cons_self c cs)
    have := ih (fun hm => hp (List.mem_cons_of_mem c hm))
    simp [hasCompletePair, hc, this]

theorem hasCompletePair_closed {p m w : List Char} (hm : '\n' ∉ m) :
    hasCompletePair (p ++ '<' :: (m ++ '>' :: w)) = true := by
  induction p with
  | nil => simp [hasCompletePair, hasCloseAhead_append hm]
  | cons c cs ih => simp [hasCompletePair, ih]

theorem findClose_append {m w : List Char} (hm1 : '>' ∉ m) (hm2 : '\n' ∉ m) :
    findClose (m ++ '>' :: w) = some (m, w) := by
  induction m with
  | nil => rfl
  | cons c cs ih =>
    have hc1 : c ≠ '>' := fun hc => hm1 (hc ▸ List.mem_cons_self c cs)
    have hc2 : c ≠ '\n' := fun hc => hm2 (hc ▸ List.mem_cons_self c cs)
    have := ih (fun hm => hm1 (List.mem_cons_of_mem c hm))
      (fun hm => hm2 (List.mem_cons_of_mem c hm))
    simp [findClose, hc1, hc2, this]

theorem imgSearch_eq {p m w : List Char} (hp : '<' ∉ p) (hm1 : '>' ∉ m)
    (hm2 : '\n' ∉ m) :
    imgSearch (p ++ '<' :: (m ++ '>' :: w)) = some (p, m, w) := by
  induction p with
  | nil => simp [imgSearch, findClose_append hm1 hm2]
  | cons c cs ih =>
    have hc : c ≠ '<' := fun hc => hp (hc ▸ List.mem_cons_self c cs)
    have := ih (fun hmem => hp (List.mem_cons_of_mem c hmem))
    simp [imgSearch, hc, this]

theorem findClose_isSome_of_hasCloseAhead {s : List Char}
    (h : hasCloseAhead s = true) : (findClose s).isSome = true := by
  induction s with
  | nil => exact Bool.noConfusion h
  | cons c cs ih =>
    by_cases hg : c = '>'
    · simp [findClose, hg]
    · by_cases hn : c = '\n'
      · rw [hasCloseAhead, if_neg hg, if_pos hn] at h
        exact Bool.noConfusion h
      · rw [hasCloseAhead, if_neg hg, if_neg hn] at h
        have := ih h
        rcases hf : findClose cs with _ | ⟨pr, rest⟩
        · rw [hf] at this
          exact Bool.noConfusion this
        · simp [findClose, hg, hn, hf]

theorem imgSearch_isSome_of_hasCompletePair {s : List Char}
    (h : hasCompletePair s = true) : (imgSearch s).isSome = true := by
  induction s with
  | nil => exact Bool.noConfusion h
  | cons c cs ih =>
    rw [hasCompletePair, Bool.or_eq_true] at h
    by_cases hc : c = '<'
    · rcases hf : findClose cs with _ | ⟨pr, rest⟩
      · have hca : hasCloseAhead cs = false := by
          cases hca : hasCloseAhead cs with
          | false => rfl
          | true =>
            have := findClose_isSome_of_hasCloseAhead hca
            rw [hf] at this
            exact Bool.noConfusion this
        have hcp : hasCompletePair cs = true := by
          rcases h with h | h
          · rw [Bool.and_eq_true] at h
            rw [hca] at h
            exact Bool.noConfusion h.2
          · exact h
        have := ih hcp
        rcases hi : imgSearch cs with _ | ⟨⟨pre, pr, rest⟩⟩
        · rw [hi] at this
          exact Bool.noConfusion this
        · simp [imgSearch, hc, hf, hi]
      · simp [imgSearch, hc, hf]
    · have hcp : hasCompletePair cs = true := by
        rcases h with h | h
        · rw [Bool.and_eq_true, decide_eq_true_eq] at h
          exact absurd h.1 hc
        · exact h
      have := ih hcp
      rcases hi : imgSearch cs with _ | ⟨⟨pre, pr, rest⟩⟩
      · rw [hi] at this
        exact Bool.noConfusion this
      · simp [imgSearch, hc, hi]

/-! ## Executing traces -/

theorem execTrace_push (s : StoryState) (f : OutFrame) (rest : List SEv) :
    execTrace s (SEv.push f :: rest) =
      ⟨(execTrace s rest).state, f :: (execTrace s rest).out,
        (execTrace s rest).exc⟩ :=
  rfl

theorem execTrace_setText (s : StoryState) (t : List Char) (rest : List SEv) :
    execTrace s (SEv.setText t :: rest) = execTrace ⟨t, s.story⟩ rest :=
  rfl

theorem exec_breakPhase_skip {s : StoryState} {t : List Char}
    (h : hasBreakToken t = false) :
    execTrace s (breakPhaseTrace t) = ⟨s, [], none⟩ := by
  simp [breakPhaseTrace, h, execTrace]

theorem exec_breakPhase_page {s : StoryState} {t : List Char}
    (h : hasBreakToken t = true)
    (hlen : 2 < (replaceNl (stripBreaks t)).length) :
    execTrace s (breakPhaseTrace t) =
      ⟨⟨[], s.story ++ [replaceNl (stripBreaks t)]⟩,
        [OutFrame.page (replaceNl (stripBreaks t)),
          OutFrame.message Cue.assistantTurn], none⟩ := by
  simp [breakPhaseTrace, h, hlen, execTrace]

theorem exec_breakPhase_short {s : StoryState} {t : List Char}
    (h : hasBreakToken t = true)
    (hlen : ¬ 2 < (replaceNl (stripBreaks t)).length) :
    execTrace s (breakPhaseTrace t) = ⟨⟨[], s.story⟩, [], none⟩ := by
  simp [breakPhaseTrace, h, hlen, execTrace]

/-! ## `process_frame` on text frames -/

theorem process_frame_text_noimg {s : StoryState} {frag : List Char}
    (h : hasCompletePair (s.text ++ frag) = false) :
    StoryProcessor.process_frame s (InFrame.text frag) =
      execTrace ⟨s.text ++ frag, s.story⟩ (breakPhaseTrace (s.text ++ frag)) := by
  simp [StoryProcessor.process_frame, storyTrace, textTrace, h, execTrace_setText]

theorem process_frame_text_img {s : StoryState} {frag pre p post : List Char}
    (h : hasCompletePair (s.text ++ frag) = true)
    (hi : imgSearch (s.text ++ frag) = some (pre, p, post)) :
    StoryProcessor.process_frame s (InFrame.text frag) =
      ⟨(execTrace ⟨pre ++ post, s.story⟩ (breakPhaseTrace (pre ++ post))).state,
        OutFrame.image p ::
          (execTrace ⟨pre ++ post, s.story⟩
            (breakPhaseTrace (pre ++ post))).out,
        (execTrace ⟨pre ++ post, s.story⟩
          (breakPhaseTrace (pre ++ post))).exc⟩ := by
  simp [StoryProcessor.process_frame, storyTrace, textTrace, h, hi,
    execTrace_setText, execTrace_push]

/-- Is an output frame a `StoryImageFrame`? -/
def isImageFrame : OutFrame → Bool
  | OutFrame.image _ => true
  | _ => false

/-! ## Claim C9 -/

/-- C9: directive extraction (line 234) only runs on buffers for which the
guard at line 228 has confirmed a complete bracket pair, where extraction
cannot fail; hence the failure branch (an `AttributeError` from calling
`.group(1)` on `None`, or any other exception) is unreachable on text
frames: no text-frame call ever raises. -/
theorem claim9_extraction_never_fails (s : StoryState) (frag : List Char) :
    (StoryProcessor.process_frame s (InFrame.text frag)).exc = none := by
  cases h : hasCompletePair (s.text ++ frag) with
  | true =>
    have hsome := imgSearch_isSome_of_hasCompletePair h
    rcases hi : imgSearch (s.text ++ frag) with _ | ⟨⟨pre, p, post⟩⟩
    · rw [hi] at hsome
      exact Bool.noConfusion hsome
    · rw [process_frame_text_img h hi]
      cases hb : hasBreakToken (pre ++ post) with
      | false => rw [exec_breakPhase_skip hb]
      | true =>
        by_cases hl : 2 < (replaceNl (stripBreaks (pre ++ post))).length
        · rw [exec_breakPhase_page hb hl]
        · rw [exec_breakPhase_short hb hl]
  | false =>
    rw [process_frame_text_noimg h]
    cases hb : hasBreakToken (s.text ++ frag) with
    | false => rw [exec_breakPhase_skip hb]
    | true =>
      by_cases hl : 2 < (replaceNl (stripBreaks (s.text ++ frag))).length
      · rw [exec_breakPhase_page hb hl]
      · rw [exec_breakPhase_short hb hl]

/-! ## Claim C5 -/

/-- C5 counterexample: the claim's trigger is a *case-insensitive*
`[break]` token, but the search at line 244 uses `\[[bB]reak\]` without
`re.IGNORECASE`: on the fragment `"ab[BREAK]cd"` (which does contain a
case-insensitive token) nothing is stripped, no page is emitted, and the
buffer is *not* cleared. -/
theorem claim5_trigger_cex :
    hasBreakCI "ab[BREAK]cd".toList = true ∧
      StoryProcessor.process_frame ⟨[], []⟩
          (InFrame.text "ab[BREAK]cd".toList) =
        ⟨⟨"ab[BREAK]cd".toList, []⟩, [], none⟩ :=
  ⟨by decide, by decide⟩

/-- C5 (amended): when the buffer (with no complete bracket pair present)
comes to contain a `[break]` or `[Break]` token — the trigger is *not*
case-insensitive — all case-insensitive break tokens are stripped and
newlines replaced by spaces; a page is appended to the story and emitted
with an assistant-turn cue exactly when the resulting text has length
greater than 2; the buffer is cleared to empty in either case. -/
theorem claim5_break_handling {t0 frag : List Char} {story : List (List Char)}
    (himg : hasCompletePair (t0 ++ frag) = false)
    (hbrk : hasBreakToken (t0 ++ frag) = true) :
    StoryProcessor.process_frame ⟨t0, story⟩ (InFrame.text frag) =
      if 2 < (replaceNl (stripBreaks (t0 ++ frag))).length then
        ⟨⟨[], story ++ [replaceNl (stripBreaks (t0 ++ frag))]⟩,
          [OutFrame.page (replaceNl (stripBreaks (t0 ++ frag))),
            OutFrame.message Cue.assistantTurn], none⟩
      else ⟨⟨[], story⟩, [], none⟩ := by
  rw [process_frame_text_noimg himg]
  by_cases hl : 2 < (replaceNl (stripBreaks (t0 ++ frag))).length
  · rw [if_pos hl, exec_breakPhase_page hbrk hl]
  · rw [if_neg hl, exec_breakPhase_short hbrk hl]

/-- Witness for C5 (amended), covering both the `[Break]` trigger spelling
and the page emission branch. -/
theorem claim5_break_handling_witness :
    StoryProcessor.process_frame ⟨[], []⟩
        (InFrame.text "Hi there.[Break]".toList) =
      ⟨⟨[], ["Hi there.".toList]⟩,
        [OutFrame.page "Hi there.".toList, OutFrame.message Cue.assistantTurn],
        none⟩ :=
  (@claim5_break_handling [] "Hi there.[Break]".toList [] (by decide)
    (by decide)).trans (by decide)

/-! ## Claim C1 -/

/-- C1 counterexample: the fragment `"<wiz>[break]ab"` contains a complete
bracket pair followed by a `[break]` token, but the corresponding page
text `"ab"` has length 2 ≤ 2, so no story page is emitted at all (the
claim asserts the image request is followed by the story page). -/
theorem claim1_short_page_cex :
    StoryProcessor.process_frame ⟨[], []⟩ (InFrame.text "<wiz>[break]ab".toList) =
      ⟨⟨[], []⟩, [OutFrame.image "wiz".toList], none⟩ := by
  decide

/-- C1 (amended): for a fragment `'<' ++ X ++ '>' ++ "[break]" ++ R`
consumed into an empty buffer, where `X` contains no `'>'` and no newline,
`R` contains no case-insensitive break token, and `R` is longer than 2
characters, exactly one image request with prompt `X` is emitted strictly
before the story page; the page text is `R` with newlines replaced by
spaces and contains no case-insensitive break token (hence neither a
`[break]` marker nor the extracted directive span).  Scenario B holds as
stated. -/
theorem claim1_image_before_page :
    (∀ (story : List (List Char)) (X R : List Char),
      '>' ∉ X → '\n' ∉ X → hasBreakCI R = false → 2 < R.length →
      StoryProcessor.process_frame ⟨[], story⟩
          (InFrame.text ('<' :: (X ++ '>' :: (breakLit ++ R)))) =
        ⟨⟨[], story ++ [replaceNl R]⟩,
          [OutFrame.image X, OutFrame.page (replaceNl R),
            OutFrame.message Cue.assistantTurn], none⟩ ∧
        hasBreakCI (replaceNl R) = false) ∧
    StoryProcessor.process_frame ⟨[], []⟩
        (InFrame.text
          "<a wizard in a forest>[break]A wizard stood in the forest.[break]".toList) =
      ⟨⟨[], ["A wizard stood in the forest.".toList]⟩,
        [OutFrame.image "a wizard in a forest".toList,
          OutFrame.page "A wizard stood in the forest.".toList,
          OutFrame.message Cue.assistantTurn], none⟩ := by
  constructor
  · intro story X R hX1 hX2 hR hlen
    have hpair : hasCompletePair
        (([] : List Char) ++ ('<' :: (X ++ '>' :: (breakLit ++ R)))) = true := by
      simpa using
        hasCompletePair_closed (p := []) (m := X) (w := breakLit ++ R) hX2
    have himg : imgSearch
        (([] : List Char) ++ ('<' :: (X ++ '>' :: (breakLit ++ R)))) =
        some ([], X, breakLit ++ R) := by
      simpa using imgSearch_eq (p := []) (m := X) (w := breakLit ++ R)
        (List.not_mem_nil '<') hX1 hX2
    have hstrip : stripBreaks (breakLit ++ R) = R :=
      (stripBreaks_breakLit R).trans (stripBreaks_of_no_token hR)
    have hb : hasBreakToken (breakLit ++ R) = true := hasBreakToken_breakLit R
    have hl : 2 < (replaceNl (stripBreaks (breakLit ++ R))).length := by
      rw [hstrip, replaceNl_length]
      exact hlen
    refine ⟨?_, hasBreakCI_replaceNl hR⟩
    rw [process_frame_text_img hpair himg]
    have hexec := exec_breakPhase_page
      (s := ⟨([] : List Char) ++ (breakLit ++ R), story⟩) hb hl
    simp only [List.nil_append] at hexec ⊢
    rw [hexec, hstrip]
  · decide

/-- Witness for C1 (amended) at `X = "wiz"`, `R = "Hello you."`. -/
theorem claim1_image_before_page_witness :
    StoryProcessor.process_frame ⟨[], []⟩
        (InFrame.text "<wiz>[break]Hello you.".toList) =
      ⟨⟨[], ["Hello you.".toList]⟩,
        [OutFrame.image "wiz".toList, OutFrame.page "Hello you.".toList,
          OutFrame.message Cue.assistantTurn], none⟩ :=
  ((by decide : StoryProcessor.process_frame ⟨[], []⟩
        (InFrame.text "<wiz>[break]Hello you.".toList) =
      StoryProcessor.process_frame ⟨[], []⟩
        (InFrame.text
          ('<' :: ("wiz".toList ++ '>' :: (breakLit ++ "Hello you.".toList))))).trans
    ((claim1_image_before_page.1 [] "wiz".toList "Hello you.".toList
        (by decide) (by decide) (by decide) (by decide)).1.trans (by decide)))

/-! ## Claim C2 -/

/-- C2 counterexample: the fragment `"<a drag[break]xxx"` leaves the buffer
(after appending) holding a `'<'` with no matching `'>'`, and indeed no
image request is emitted — but the buffer is *not* retained: the break
handling strips the token, emits the partial directive text as a story
page, and clears the buffer. -/
theorem claim2_retention_cex :
    hasCompletePair "<a drag[break]xxx".toList = false ∧
      StoryProcessor.process_frame ⟨[], []⟩
          (InFrame.text "<a drag[break]xxx".toList) =
        ⟨⟨[], ["<a dragxxx".toList]⟩,
          [OutFrame.page "<a dragxxx".toList,
            OutFrame.message Cue.assistantTurn], none⟩ :=
  ⟨by decide, by decide⟩

/-- C2 (amended): starting from an empty buffer, a fragment
`p ++ '<' ++ q` with no `'<'` in `p`, no `'>'` in `q` *and no break token*
emits nothing and is retained in full; a later fragment `r ++ '>' ++ s2`
closing the bracket (no `'>'`/newline in `r`) makes the call emit exactly
one image request, first, carrying the text `q ++ r` strictly between the
`'<'` and that `'>'`. -/
theorem claim2_buffer_until_close :
    (∀ (story : List (List Char)) (p q : List Char),
      '<' ∉ p → '>' ∉ q →
      hasBreakToken (p ++ '<' :: q) = false →
      StoryProcessor.process_frame ⟨[], story⟩ (InFrame.text (p ++ '<' :: q)) =
        ⟨⟨p ++ '<' :: q, story⟩, [], none⟩) ∧
    (∀ (story : List (List Char)) (p q r s2 : List Char),
      '<' ∉ p → '>' ∉ q → '\n' ∉ q → '>' ∉ r → '\n' ∉ r →
      (StoryProcessor.process_frame ⟨p ++ '<' :: q, story⟩
          (InFrame.text (r ++ '>' :: s2))).out.countP
            (fun f => isImageFrame f) = 1 ∧
      (StoryProcessor.process_frame ⟨p ++ '<' :: q, story⟩
          (InFrame.text (r ++ '>' :: s2))).out.head? =
        some (OutFrame.image (q ++ r))) := by
  constructor
  · intro story p q hp hq hbrk
    have hpair : hasCompletePair (([] : List Char) ++ (p ++ '<' :: q)) =
        false := by
      simpa using hasCompletePair_open_only hp hq
    rw [process_frame_text_noimg hpair]
    have := exec_breakPhase_skip
      (s := ⟨([] : List Char) ++ (p ++ '<' :: q), story⟩)
      (by simpa using hbrk)
    simpa using this
  · intro story p q r s2 hp hq hqn hr hrn
    have heq : (p ++ '<' :: q) ++ (r ++ '>' :: s2) =
        p ++ '<' :: ((q ++ r) ++ '>' :: s2) := by
      simp
    have hqr : '>' ∉ q ++ r := by
      intro hm
      rcases List.mem_append.1 hm with hm | hm
      · exact hq hm
      · exact hr hm
    have hqrn : '\n' ∉ q ++ r := by
      intro hm
      rcases List.mem_append.1 hm with hm | hm
      · exact hqn hm
      · exact hrn hm
    have hpair : hasCompletePair ((p ++ '<' :: q) ++ (r ++ '>' :: s2)) =
        true := by
      rw [heq]
      exact hasCompletePair_closed hqrn
    have himg : imgSearch ((p ++ '<' :: q) ++ (r ++ '>' :: s2)) =
        some (p, q ++ r, s2) := by
      rw [heq]
      exact imgSearch_eq hp hqr hqrn
    constructor
    · rw [process_frame_text_img hpair himg]
      have hnone : ((execTrace ⟨p ++ s2, story⟩
            (breakPhaseTrace (p ++ s2))).out).countP
            (fun f => isImageFrame f) = 0 := by
        cases hb : hasBreakToken (p ++ s2) with
        | false => rw [exec_breakPhase_skip hb]; rfl
        | true =>
          by_cases hl : 2 < (replaceNl (stripBreaks (p ++ s2))).length
          · rw [exec_breakPhase_page hb hl]
            rfl
          · rw [exec_breakPhase_short hb hl]
            rfl
      rw [List.countP_cons, hnone]
      rfl
    · rw [process_frame_text_img hpair himg]
      rfl

/-- Witness for C2 (amended): scenario C, fragments `"<a drag"` then
`"on>[break]Ok.[break]"`. -/
theorem claim2_buffer_until_close_witness :
    (StoryProcessor.process_frame ⟨[], []⟩ (InFrame.text "<a drag".toList) =
      ⟨⟨"<a drag".toList, []⟩, [], none⟩) ∧
      (StoryProcessor.process_frame ⟨"<a drag".toList, []⟩
          (InFrame.text "on>[break]Ok.[break]".toList)).out.countP
            (fun f => isImageFrame f) = 1 ∧
      (StoryProcessor.process_frame ⟨"<a drag".toList, []⟩
          (InFrame.text "on>[break]Ok.[break]".toList)).out.head? =
        some (OutFrame.image "a dragon".toList) := by
  refine ⟨?_, ?_, ?_⟩
  · exact claim2_buffer_until_close.1 [] [] "a drag".toList
      (List.not_mem_nil '<') (by decide) (by decide)
  · exact (claim2_buffer_until_close.2 [] [] "a drag".toList "on".toList
      "[break]Ok.[break]".toList (List.not_mem_nil '<') (by decide)
      (by decide) (by decide) (by decide)).1
  · exact (claim2_buffer_until_close.2 [] [] "a drag".toList "on".toList
      "[break]Ok.[break]".toList (List.not_mem_nil '<') (by decide)
      (by decide) (by decide) (by decide)).2

/-! ## Claim C7 -/

/-- C7 (code-bug evidence): on an `LLMFullResponseEndFrame` with buffer
`"The end"` the processor emits the prompt unit carrying `"The end"`,
clears the buffer, forwards the end signal, and emits the user-turn cue —
in that order — but then raises `NameError` when evaluating
`sounds["listening"]` (line 268), because line 24 defining `sounds` is
commented out; the start-listening audio cue the claim requires is never
pushed. -/
theorem claim7_end_of_response :
    StoryProcessor.process_frame ⟨"The end".toList, []⟩ InFrame.llmEnd =
      ⟨⟨[], []⟩,
        [OutFrame.storyPrompt "The end".toList, OutFrame.endResponse,
          OutFrame.message Cue.userTurn], some PyExc.nameError⟩ := by
  decide

/-! ## ConversationProcessor embedding -/

/-- One transcription entry (processors.py lines 72-76). -/
structure ConvEntry where
  user_id : List Char
  text : List Char
  timestamp : List Char
  deriving DecidableEq

/-- One message of the shared history (`{"role": ..., "content": ...}`). -/
structure ConvMsg where
  role : List Char
  content : List Char
  deriving DecidableEq

/-- `f"{entry['timestamp']} - {entry['user_id']}: {entry['text']}"`
(line 104). -/
def formatEntry (e : ConvEntry) : List Char :=
  e.timestamp ++ " - ".toList ++ e.user_id ++ ": ".toList ++ e.text

/-- `"\n".join(formatted)` (line 105). -/
def joinNl : List (List Char) → List Char
  | [] => []
  | [l] => l
  | l :: ls => l ++ '\n' :: joinNl ls

/-- Atomic actions of `ConversationProcessor._push_aggregation`. -/
inductive CEv where
  | appendMsg (m : ConvMsg)
  | clearAgg
  | pushMsgs (ms : List ConvMsg)
  deriving DecidableEq

namespace ConversationProcessor

/-- `format_aggregation` (lines 98-105). -/
def format_aggregation (agg : List ConvEntry) : List Char :=
  joinNl (agg.map formatEntry)

/-- `_push_aggregation` (lines 85-96) as a sequence of atomic actions:
when the aggregation is non-empty, append the rendered `user` turn to the
shared message list, reset the aggregation buffer, then push the updated
full history downstream — the reset deliberately precedes the push (source
comment, lines 90-91). -/
def push_aggregation_trace (messages : List ConvMsg) (agg : List ConvEntry) :
    List CEv :=
  if 0 < agg.length then
    [CEv.appendMsg ⟨"user".toList, format_aggregation agg⟩, CEv.clearAgg,
      CEv.pushMsgs (messages ++ [⟨"user".toList, format_aggregation agg⟩])]
  else []

/-- `get_last_n_entries` (lines 113-117): Python `self._messages[-n:]` for
a natural `n`.  In Python `-0 == 0`, so `n = 0` slices from the start and
yields the whole list; for `n > 0` the negative start index clamps at the
head. -/
def get_last_n_entries {α : Type} (messages : List α) (n : Nat) : List α :=
  if n = 0 then messages
  else messages.drop (messages.length - min n messages.length)

end ConversationProcessor

/-! ## Order of buffer clearing and emission (for claim C6) -/

/-- Is the aggregation buffer cleared strictly before the updated history
`u` is pushed, in the given trace? -/
def clearBeforePushC (tr : List CEv) (u : List ConvMsg) : Bool :=
  match tr with
  | [] => false
  | CEv.clearAgg :: rest =>
    rest.any (fun x => decide (x = CEv.pushMsgs u)) || clearBeforePushC rest u
  | _ :: rest => clearBeforePushC rest u

/-- Is the text buffer cleared (`self._text = ""`) strictly before the
frame `u` is pushed, in the given trace? -/
def clearedBeforePushS (tr : List SEv) (u : OutFrame) : Bool :=
  match tr with
  | [] => false
  | e :: rest =>
    if e = SEv.setText [] then
      rest.any (fun x => decide (x = SEv.push u)) || clearedBeforePushS rest u
    else clearedBeforePushS rest u

/-- Is the frame `u` pushed strictly before any clearing of the text
buffer, in the given trace? -/
def pushBeforeClearS (tr : List SEv) (u : OutFrame) : Bool :=
  match tr with
  | [] => false
  | e :: rest =>
    if e = SEv.push u then true
    else if e = SEv.setText [] then false
    else pushBeforeClearS rest u

/-! ## Claim C6 -/

/-- C6 counterexample: for the story-page flush on fragment
`"Hey there.[break]"` (empty buffer), the page frame *is* pushed but no
clear of the buffer precedes the push: `self._text = ""` only happens at
line 257, after the push at line 253. -/
theorem claim6_clear_before_push_cex :
    ((storyTrace ⟨[], []⟩ (InFrame.text "Hey there.[break]".toList)).any
        (fun x =>
          decide (x = SEv.push (OutFrame.page "Hey there.".toList))) = true) ∧
      clearedBeforePushS
        (storyTrace ⟨[], []⟩ (InFrame.text "Hey there.[break]".toList))
        (OutFrame.page "Hey there.".toList) = false :=
  ⟨by decide, by decide⟩

/-- C6 (amended): of the flushes the claim names, only
`ConversationProcessor._push_aggregation` resets its buffer strictly
before pushing the derived unit; `StoryProcessor` pushes the story page
(and the story prompt on end-of-response) strictly before clearing its
buffer. -/
theorem claim6_flush_order :
    (∀ (messages : List ConvMsg) (agg : List ConvEntry), agg ≠ [] →
      clearBeforePushC
        (ConversationProcessor.push_aggregation_trace messages agg)
        (messages ++
          [⟨"user".toList, ConversationProcessor.format_aggregation agg⟩]) =
        true) ∧
    (∀ t : List Char, hasBreakToken t = true →
      2 < (replaceNl (stripBreaks t)).length →
      pushBeforeClearS (breakPhaseTrace t)
        (OutFrame.page (replaceNl (stripBreaks t))) = true) ∧
    (∀ s : StoryState,
      pushBeforeClearS (storyTrace s InFrame.llmEnd)
        (OutFrame.storyPrompt s.text) = true) := by
  refine ⟨?_, ?_, ?_⟩
  · intro messages agg hagg
    have hlen : 0 < agg.length := List.length_pos.2 hagg
    simp [ConversationProcessor.push_aggregation_trace, hlen,
      clearBeforePushC, List.any]
  · intro t hb hl
    have ht2 : replaceNl (stripBreaks t) ≠ [] := by
      intro h0
      rw [h0] at hl
      simp at hl
    have ht1 : stripBreaks t ≠ [] := by
      intro h0
      apply ht2
      rw [h0]
      rfl
    simp [breakPhaseTrace, hb, hl, pushBeforeClearS, ht1, ht2]
  · intro s
    simp [storyTrace, pushBeforeClearS]

/-- Witness for C6 (amended) at concrete flush inputs. -/
theorem claim6_flush_order_witness :
    clearBeforePushC
        (ConversationProcessor.push_aggregation_trace []
          [⟨"u1".toList, "hi".toList, "t0".toList⟩])
        ([] ++
          [⟨"user".toList, ConversationProcessor.format_aggregation
            [⟨"u1".toList, "hi".toList, "t0".toList⟩]⟩]) = true ∧
      pushBeforeClearS (breakPhaseTrace "Hi there.[break]".toList)
        (OutFrame.page (replaceNl (stripBreaks "Hi there.[break]".toList))) =
        true ∧
      pushBeforeClearS (storyTrace ⟨"The end".toList, []⟩ InFrame.llmEnd)
        (OutFrame.storyPrompt "The end".toList) = true := by
  refine ⟨claim6_flush_order.1 [] _ (by decide),
    claim6_flush_order.2.1 _ (by decide) (by decide),
    claim6_flush_order.2.2 ⟨"The end".toList, []⟩⟩

/-! ## Claim C10 -/

/-- C10: `get_last_n_entries` with `n = 0` returns the entire history
(Python `-0 == 0`), and for every `n ≥ 1` it returns the last
`min(n, length)` turns in order. -/
theorem claim10_last_n_entries {α : Type} (messages : List α) (n : Nat) :
    ConversationProcessor.get_last_n_entries messages 0 = messages ∧
      (1 ≤ n → ConversationProcessor.get_last_n_entries messages n =
        (messages.reverse.take n).reverse) := by
  constructor
  · simp [ConversationProcessor.get_last_n_entries]
  · intro hn
    have hne : n ≠ 0 := by omega
    rw [ConversationProcessor.get_last_n_entries, if_neg hne]
    have harith : messages.length - min n messages.length =
        messages.length - n := by omega
    rw [harith, ← List.rtake_eq_reverse_take_reverse]
    rfl

/-- Witness for C10 at `messages = [1, 2, 3]`, `n = 2`. -/
theorem claim10_last_n_entries_witness :
    ConversationProcessor.get_last_n_entries [1, 2, 3] 0 = [1, 2, 3] ∧
      ConversationProcessor.get_last_n_entries [1, 2, 3] 2 = [2, 3] :=
  ⟨(claim10_last_n_entries [1, 2, 3] 0).1,
    ((claim10_last_n_entries [1, 2, 3] 2).2 (by decide)).trans (by decide)⟩

/-! ## StoryImageProcessor embedding -/

/-- Output of `StoryImageProcessor.process_frame`: a forwarded image
result from the backend, or a passthrough of a non-image frame. -/
inductive ImgOut (α : Type) where
  | result (r : α)
  | passthrough
  deriving DecidableEq

/-- Input frames to `StoryImageProcessor.process_frame`. -/
inductive ImgIn where
  | image (text : List Char)
  | other
  deriving DecidableEq

/-- `timeout(7)` at line 179: the fixed deadline, in the time units of the
`async_timeout` call. -/
def timeout_seconds : Nat := 7

namespace StoryImageProcessor

/-- Modelled from the spec: the bounded-time semantics of
`async_timeout.timeout` around the streaming backend call (the
`async_timeout` library and the FAL service are outside this repository;
spec §4.3 defines the contract).  The stream is a list of results tagged
with their production times; results produced strictly before the
deadline are delivered in order, and if any result would only be produced
at or after the deadline, `TimeoutError` is raised at the deadline once
the pre-deadline results have been delivered. -/
def runWithDeadline {α : Type} (stream : List (Nat × α)) (deadline : Nat) :
    List α × Option PyExc :=
  ((stream.takeWhile (fun p => decide (p.1 < deadline))).map Prod.snd,
    if stream.any (fun p => decide (deadline ≤ p.1)) then
      some PyExc.timeoutError
    else none)

/-- `StoryImageProcessor.process_frame` (lines 174-186): on a
`StoryImageFrame`, stream the backend results (the `backend` argument
models `lambda t: run_image_gen(IMAGE_GEN_PROMPT % t)` as a timed
stream), pushing each as it arrives; `except TimeoutError: pass` (lines
182-183) swallows the deadline exception, so the call returns normally;
any other escaping exception would propagate.  Non-image frames are
pushed through unchanged. -/
def process_frame {α : Type} (backend : List Char → List (Nat × α)) :
    ImgIn → List (ImgOut α) × Option PyExc
  | ImgIn.image t =>
    match runWithDeadline (backend t) timeout_seconds with
    | (res, some PyExc.timeoutError) => (res.map ImgOut.result, none)
    | (res, some e) => (res.map ImgOut.result, some e)
    | (res, none) => (res.map ImgOut.result, none)
  | ImgIn.other => ([ImgOut.passthrough], none)

end StoryImageProcessor

theorem takeWhile_append_eq {α : Type} {f : α → Bool} {pre post : List α}
    (hpre : ∀ a ∈ pre, f a = true) (hpost : ∀ a ∈ post, f a = false) :
    (pre ++ post).takeWhile f = pre := by
  induction pre with
  | nil =>
    cases post with
    | nil => rfl
    | cons b bs =>
      have hb : f b = false := hpost b (List.mem_cons_self b bs)
      simp [List.takeWhile, hb]
  | cons a as ih =>
    have ha : f a = true := hpre a (List.mem_cons_self a as)
    have := ih (fun x hx => hpre x (List.mem_cons_of_mem a hx))
    simp [List.takeWhile, ha, this]

/-! ## Claim C8 -/

/-- C8: every image result the backend produces strictly before the fixed
7-unit deadline is forwarded downstream in production order, and when the
deadline elapses before the backend completes, the remaining results are
silently discarded: the `TimeoutError` is caught, no error reaches the
caller, and the call returns normally. -/
theorem claim8_bounded_image {α : Type}
    (backend : List Char → List (Nat × α)) (t : List Char)
    (pre post : List (Nat × α)) (hsplit : backend t = pre ++ post)
    (hpre : ∀ p ∈ pre, p.1 < timeout_seconds)
    (hpost : ∀ p ∈ post, timeout_seconds ≤ p.1) :
    StoryImageProcessor.process_frame backend (ImgIn.image t) =
      (pre.map (fun p => ImgOut.result p.2), none) := by
  have htake : ((pre ++ post).takeWhile
      (fun p => decide (p.1 < timeout_seconds))) = pre :=
    takeWhile_append_eq
      (fun p hp => decide_eq_true (hpre p hp))
      (fun p hp => decide_eq_false (by
        have := hpost p hp
        omega))
  have hrun : StoryImageProcessor.runWithDeadline (backend t)
      timeout_seconds =
      (pre.map Prod.snd,
        if (pre ++ post).any (fun p => decide (timeout_seconds ≤ p.1)) then
          some PyExc.timeoutError
        else none) := by
    rw [StoryImageProcessor.runWithDeadline, hsplit, htake]
  rw [StoryImageProcessor.process_frame, hrun]
  cases hany : (pre ++ post).any (fun p => decide (timeout_seconds ≤ p.1)) with
  | true => simp
  | false => simp

/-- Witness for C8: a backend producing results at times 1 and 3 and a
third result only at time 9, past the deadline. -/
theorem claim8_bounded_image_witness :
    StoryImageProcessor.process_frame
        (fun _ => [(1, 0), (3, 1), (9, 2)]) (ImgIn.image "cat".toList) =
      ([ImgOut.result 0, ImgOut.result 1], none) :=
  (claim8_bounded_image (fun _ => [(1, 0), (3, 1), (9, 2)]) "cat".toList
      [(1, 0), (3, 1)] [(9, 2)] rfl (by decide) (by decide)).trans (by decide)
